import Mathlib

/-!
# Verification of `rope.base.serializer`

A shallow embedding of `src/rope/base/serializer.py`, which converts a data
structure of Python primitives (`dict`, `list`, `tuple`, `int`, `str`,
`None`) to JSON-serializable primitives and back.

* `PyVal` models the generalized (Python-side) values.  Python `dict`s are
  modelled as insertion-ordered association lists; a real Python `dict`
  always has pairwise-distinct keys, which becomes an explicit
  well-formedness hypothesis where it matters.
* `JVal` models JSON-safe values (`null`, integer numbers, strings, arrays,
  insertion-ordered objects).  The standard JSON text transcoding is assumed
  order-preserving, so it is the identity on this model (`jsonRoundTrip`).
* Machine-level caveats: Python `str.isdigit` accepts some non-ASCII digit
  characters; the model uses ASCII digits (`Char.isDigit`), which agrees
  with Python on every value appearing in the specification's claims and is
  self-consistent between encoder and decoder.
-/

/-- Generalized (Python-side) values: `str`, `int`, `None`, `tuple`, `list`,
`dict` (insertion-ordered key/value pairs). -/
inductive PyVal where
  | str (s : String)
  | int (n : Int)
  | none
  | tuple (items : List PyVal)
  | list (items : List PyVal)
  | dict (entries : List (PyVal × PyVal))

/-- JSON-safe values: `string`, integer `number`, `null`, `array`, `object`
(insertion-ordered string-keyed fields). -/
inductive JVal where
  | str (s : String)
  | int (n : Int)
  | null
  | arr (items : List JVal)
  | obj (fields : List (String × JVal))

/-- The Python exceptions the serializer can raise. -/
inductive SerErr where
  | assertionError (msg : String)
  | valueError (msg : String)
  | typeError (msg : String)
  | keyError (key : String)
  | recursionError
deriving DecidableEq

mutual

/-- Structural equality on `PyVal`; coincides with Python `==` on the
modelled types (dict keys are never `bool`, so `True == 1` never matters). -/
def pvBeq : PyVal → PyVal → Bool
  | .str a, .str b => decide (a = b)
  | .int a, .int b => decide (a = b)
  | .none, .none => true
  | .tuple a, .tuple b => pvBeqList a b
  | .list a, .list b => pvBeqList a b
  | .dict a, .dict b => pvBeqEntries a b
  | _, _ => false

def pvBeqList : List PyVal → List PyVal → Bool
  | [], [] => true
  | a :: as', b :: bs' => pvBeq a b && pvBeqList as' bs'
  | _, _ => false

def pvBeqEntries : List (PyVal × PyVal) → List (PyVal × PyVal) → Bool
  | [], [] => true
  | (k1, v1) :: as', (k2, v2) :: bs' => pvBeq k1 k2 && pvBeq v1 v2 && pvBeqEntries as' bs'
  | _, _ => false

end

mutual

theorem pvBeq_iff : ∀ a b : PyVal, pvBeq a b = true ↔ a = b
  | .str a, .str b => by simp [pvBeq]
  | .int a, .int b => by simp [pvBeq]
  | .none, .none => by simp [pvBeq]
  | .tuple a, .tuple b => by
      simp only [pvBeq, PyVal.tuple.injEq]
      exact pvBeqList_iff a b
  | .list a, .list b => by
      simp only [pvBeq, PyVal.list.injEq]
      exact pvBeqList_iff a b
  | .dict a, .dict b => by
      simp only [pvBeq, PyVal.dict.injEq]
      exact pvBeqEntries_iff a b
  | .str _, .int _ | .str _, .none | .str _, .tuple _ | .str _, .list _ | .str _, .dict _
  | .int _, .str _ | .int _, .none | .int _, .tuple _ | .int _, .list _ | .int _, .dict _
  | .none, .str _ | .none, .int _ | .none, .tuple _ | .none, .list _ | .none, .dict _
  | .tuple _, .str _ | .tuple _, .int _ | .tuple _, .none | .tuple _, .list _ | .tuple _, .dict _
  | .list _, .str _ | .list _, .int _ | .list _, .none | .list _, .tuple _ | .list _, .dict _
  | .dict _, .str _ | .dict _, .int _ | .dict _, .none | .dict _, .tuple _ | .dict _, .list _ =>
      by simp [pvBeq]

theorem pvBeqList_iff : ∀ a b : List PyVal, pvBeqList a b = true ↔ a = b
  | [], [] => by simp [pvBeqList]
  | a :: as', b :: bs' => by
      simp only [pvBeqList, Bool.and_eq_true, List.cons.injEq]
      exact and_congr (pvBeq_iff a b) (pvBeqList_iff as' bs')
  | [], _ :: _ => by simp [pvBeqList]
  | _ :: _, [] => by simp [pvBeqList]

theorem pvBeqEntries_iff : ∀ a b : List (PyVal × PyVal), pvBeqEntries a b = true ↔ a = b
  | [], [] => by simp [pvBeqEntries]
  | (k1, v1) :: as', (k2, v2) :: bs' => by
      simp only [pvBeqEntries, Bool.and_eq_true, List.cons.injEq, Prod.mk.injEq]
      rw [pvBeq_iff k1 k2, pvBeq_iff v1 v2, pvBeqEntries_iff as' bs', and_assoc]
  | [], _ :: _ => by simp [pvBeqEntries]
  | _ :: _, [] => by simp [pvBeqEntries]

end

instance : DecidableEq PyVal := fun a b => decidable_of_iff _ (pvBeq_iff a b)

mutual

/-- Structural equality on `JVal`. -/
def jvBeq : JVal → JVal → Bool
  | .str a, .str b => decide (a = b)
  | .int a, .int b => decide (a = b)
  | .null, .null => true
  | .arr a, .arr b => jvBeqList a b
  | .obj a, .obj b => jvBeqFields a b
  | _, _ => false

def jvBeqList : List JVal → List JVal → Bool
  | [], [] => true
  | a :: as', b :: bs' => jvBeq a b && jvBeqList as' bs'
  | _, _ => false

def jvBeqFields : List (String × JVal) → List (String × JVal) → Bool
  | [], [] => true
  | (k1, v1) :: as', (k2, v2) :: bs' => decide (k1 = k2) && jvBeq v1 v2 && jvBeqFields as' bs'
  | _, _ => false

end

mutual

theorem jvBeq_iff : ∀ a b : JVal, jvBeq a b = true ↔ a = b
  | .str a, .str b => by simp [jvBeq]
  | .int a, .int b => by simp [jvBeq]
  | .null, .null => by simp [jvBeq]
  | .arr a, .arr b => by
      simp only [jvBeq, JVal.arr.injEq]
      exact jvBeqList_iff a b
  | .obj a, .obj b => by
      simp only [jvBeq, JVal.obj.injEq]
      exact jvBeqFields_iff a b
  | .str _, .int _ | .str _, .null | .str _, .arr _ | .str _, .obj _
  | .int _, .str _ | .int _, .null | .int _, .arr _ | .int _, .obj _
  | .null, .str _ | .null, .int _ | .null, .arr _ | .null, .obj _
  | .arr _, .str _ | .arr _, .int _ | .arr _, .null | .arr _, .obj _
  | .obj _, .str _ | .obj _, .int _ | .obj _, .null | .obj _, .arr _ =>
      by simp [jvBeq]

theorem jvBeqList_iff : ∀ a b : List JVal, jvBeqList a b = true ↔ a = b
  | [], [] => by simp [jvBeqList]
  | a :: as', b :: bs' => by
      simp only [jvBeqList, Bool.and_eq_true, List.cons.injEq]
      exact and_congr (jvBeq_iff a b) (jvBeqList_iff as' bs')
  | [], _ :: _ => by simp [jvBeqList]
  | _ :: _, [] => by simp [jvBeqList]

theorem jvBeqFields_iff : ∀ a b : List (String × JVal), jvBeqFields a b = true ↔ a = b
  | [], [] => by simp [jvBeqFields]
  | (k1, v1) :: as', (k2, v2) :: bs' => by
      simp only [jvBeqFields, Bool.and_eq_true, List.cons.injEq, Prod.mk.injEq]
      rw [jvBeq_iff v1 v2, jvBeqFields_iff as' bs', decide_eq_true_iff, and_assoc]
  | [], _ :: _ => by simp [jvBeqFields]
  | _ :: _, [] => by simp [jvBeqFields]

end

instance : DecidableEq JVal := fun a b => decidable_of_iff _ (jvBeq_iff a b)

/-! ## String and number helpers (Python `str.isdigit`, `int(...)`, `str(...)`) -/

/-- Python `s.isdigit()`: non-empty and every character a (ASCII) digit. -/
def strIsDigit (s : String) : Bool :=
  !s.data.isEmpty && s.data.all Char.isDigit

/-- Python `int(s)` for a digit-only string `s` (always non-negative). -/
def strToNat (s : String) : Nat :=
  s.data.foldl (fun a c => 10 * a + (c.toNat - 48)) 0

/-- The decimal digit character for `n < 10`. -/
def digitChar10 (n : Nat) : Char :=
  match n with
  | 0 => '0' | 1 => '1' | 2 => '2' | 3 => '3' | 4 => '4'
  | 5 => '5' | 6 => '6' | 7 => '7' | 8 => '8' | 9 => '9'
  | _ => '*'

/-- Fuelled digit accumulator for the decimal printer (fuel `n + 1` always
suffices; structural recursion on the fuel keeps it computable by `rfl`). -/
def natDigitsAux : Nat → Nat → List Char → List Char
  | 0, _, acc => acc
  | fuel + 1, n, acc =>
      if n < 10 then digitChar10 n :: acc
      else natDigitsAux fuel (n / 10) (digitChar10 (n % 10) :: acc)

/-- Python `str(n)` for a non-negative integer `n` (decimal, no sign). -/
def natToString (n : Nat) : String :=
  String.mk (natDigitsAux (n + 1) n [])

theorem digitChar10_isDigit {m : Nat} (h : m < 10) : (digitChar10 m).isDigit = true := by
  interval_cases m <;> decide

theorem digitChar10_toNat {m : Nat} (h : m < 10) : (digitChar10 m).toNat - 48 = m := by
  interval_cases m <;> decide

theorem natDigitsAux_foldl (fuel : Nat) :
    ∀ n acc, n < fuel →
      (natDigitsAux fuel n acc).foldl (fun a c => 10 * a + (c.toNat - 48)) 0 =
        acc.foldl (fun a c => 10 * a + (c.toNat - 48)) n := by
  induction fuel with
  | zero => intro n acc h; omega
  | succ fuel ih =>
      intro n acc h
      by_cases h10 : n < 10
      · simp [natDigitsAux, h10, digitChar10_toNat h10]
      · have hdiv : n / 10 < fuel := by
          have h1 : n / 10 < n := Nat.div_lt_self (by omega) (by omega)
          omega
        rw [natDigitsAux, if_neg h10, ih (n / 10) _ hdiv]
        have hmod : n % 10 < 10 := Nat.mod_lt _ (by omega)
        simp [digitChar10_toNat hmod]
        rw [Nat.div_add_mod]

theorem natDigitsAux_digits (fuel : Nat) :
    ∀ n acc, n < fuel → acc.all Char.isDigit = true →
      (natDigitsAux fuel n acc).all Char.isDigit = true ∧ natDigitsAux fuel n acc ≠ [] := by
  induction fuel with
  | zero => intro n acc h; omega
  | succ fuel ih =>
      intro n acc h hacc
      by_cases h10 : n < 10
      · simp [natDigitsAux, h10, digitChar10_isDigit h10, hacc]
      · have hdiv : n / 10 < fuel := by
          have h1 : n / 10 < n := Nat.div_lt_self (by omega) (by omega)
          omega
        rw [natDigitsAux, if_neg h10]
        refine ih (n / 10) _ hdiv ?_
        have hmod : n % 10 < 10 := Nat.mod_lt _ (by omega)
        simp [digitChar10_isDigit hmod, hacc]

/-- Round trip for the decimal printer: `int(str(n)) = n`. -/
theorem strToNat_natToString (n : Nat) : strToNat (natToString n) = n := by
  have := natDigitsAux_foldl (n + 1) n [] (by omega)
  simpa [strToNat, natToString] using this

/-- `str(n)` is always a digit-only (hence non-empty) string. -/
theorem strIsDigit_natToString (n : Nat) : strIsDigit (natToString n) = true := by
  have h := natDigitsAux_digits (n + 1) n [] (by omega) (by simp)
  have hne : (natDigitsAux (n + 1) n []).isEmpty = false := by
    cases hcase : natDigitsAux (n + 1) n [] with
    | nil => exact absurd hcase h.2
    | cons a l => simp
  simp [strIsDigit, natToString, hne, h.1]

theorem natToString_injective {a b : Nat} (h : natToString a = natToString b) : a = b := by
  have ha := strToNat_natToString a
  have hb := strToNat_natToString b
  rw [h] at ha; omega

/-! ## Dict/object primitives -/

/-- First-match lookup in an ordered object; models Python `o[key]` /
`key in o` on a `dict` (whose keys are unique, so first match is the match). -/
def lookupField : List (String × JVal) → String → Option JVal
  | [], _ => Option.none
  | (k, v) :: rest, key => if k = key then some v else lookupField rest key

/-- Python `o[key]` on an object: `KeyError` when absent. -/
def jGet (fields : List (String × JVal)) (key : String) : Except SerErr JVal :=
  match lookupField fields key with
  | some v => .ok v
  | Option.none => .error (.keyError key)

/-- Python `d[k] = v` on a string-keyed dict modelled as an ordered
association list: overwrite in place if the key is present (keeping its
position), else append. -/
def setKey (fields : List (String × JVal)) (k : String) (v : JVal) :
    List (String × JVal) :=
  if fields.any (fun p => decide (p.1 = k)) then
    fields.map (fun p => if p.1 = k then (p.1, v) else p)
  else fields ++ [(k, v)]

/-- Python `d[k] = v` on a `PyVal`-keyed dict (same overwrite-or-append
semantics, with Python `==` on keys). -/
def setKeyP (entries : List (PyVal × PyVal)) (k : PyVal) (v : PyVal) :
    List (PyVal × PyVal) :=
  if entries.any (fun p => decide (p.1 = k)) then
    entries.map (fun p => if p.1 = k then (p.1, v) else p)
  else entries ++ [(k, v)]

/-- Python `for x in o`: arrays iterate elements, strings iterate 1-character
strings, objects iterate their field names; numbers and `null` are not
iterable (`TypeError`). -/
def jIter : JVal → Except SerErr (List JVal)
  | .arr l => .ok l
  | .str s => .ok (s.data.map (fun c => .str (String.mk [c])))
  | .obj fields => .ok (fields.map (fun p => .str p.1))
  | .int _ => .error (.typeError "int object is not iterable")
  | .null => .error (.typeError "NoneType object is not iterable")

/-! ## Key classification (encoder side) -/

/-- Python `k == "$"` for a dict key. -/
def keyDollar : PyVal → Bool
  | .str s => decide (s = "$")
  | _ => false

/-- `isinstance(k, str) and not k.isdigit()`: encoded directly as a field
name. -/
def isDirectKey : PyVal → Bool
  | .str s => !strIsDigit s
  | _ => false

/-- The underlying string of a direct key. -/
def keyStr : PyVal → String
  | .str s => s
  | _ => ""

/-- `isinstance(k, (str, int, list, tuple)) or k is None`: dict keys of
`dict` type fail the source's assert. -/
def keyAllowed : PyVal → Bool
  | .dict _ => false
  | _ => true

/-! ## Encoder (`_py2js` / `python_to_json`)

The Python `references` list is mutated by appending only; it is modelled by
explicit state passing.  The `version` parameter of `_py2js` is threaded by
the source but never read, so it is omitted here.  The source's final
`raise TypeError` branch of `_py2js` is unreachable on `PyVal` (every
modelled Python type is one of the handled cases).  The `result` dict is
built by Python item assignment (`setKey`). -/

mutual

def py2js : PyVal → List JVal → Except SerErr (JVal × List JVal)
  | .str s, refs => .ok (.str s, refs)
  | .int n, refs => .ok (.int n, refs)
  | .none, refs => .ok (.null, refs)
  | .tuple items, refs =>
      match py2jsList items refs with
      | .ok (js, refs1) => .ok (.obj [("$", .str "t"), ("items", .arr js)], refs1)
      | .error e => .error e
  | .list items, refs =>
      match py2jsList items refs with
      | .ok (js, refs1) => .ok (.arr js, refs1)
      | .error e => .error e
  | .dict entries, refs =>
      match py2jsDict entries refs [] with
      | .ok (fields, refs1) => .ok (.obj fields, refs1)
      | .error e => .error e

def py2jsList : List PyVal → List JVal → Except SerErr (List JVal × List JVal)
  | [], refs => .ok ([], refs)
  | x :: xs, refs =>
      match py2js x refs with
      | .ok (j, refs1) =>
          match py2jsList xs refs1 with
          | .ok (js, refs2) => .ok (j :: js, refs2)
          | .error e => .error e
      | .error e => .error e

/-- One step per dict item, in insertion order.  For a non-direct key the
source computes `refid = len(references)` first, then evaluates
`_py2js(k, references, version)` (which may itself append), then appends its
result, then encodes the value. -/
def py2jsDict :
    List (PyVal × PyVal) → List JVal → List (String × JVal) →
      Except SerErr (List (String × JVal) × List JVal)
  | [], refs, acc => .ok (acc, refs)
  | (k, v) :: rest, refs, acc =>
      if keyDollar k then .error (.valueError "dict cannot contain reserved key \x22$\x22")
      else if isDirectKey k then
        match py2js v refs with
        | .ok (jv, refs1) => py2jsDict rest refs1 (setKey acc (keyStr k) jv)
        | .error e => .error e
      else if keyAllowed k then
        match py2js k refs with
        | .ok (jk, refs1) =>
            match py2js v (refs1 ++ [jk]) with
            | .ok (jv, refs2) => py2jsDict rest refs2 (setKey acc (natToString refs.length) jv)
            | .error e => .error e
        | .error e => .error e
      else .error (.assertionError "key must be str, int, list, tuple or None")

end

/-- `python_to_json(o, version)`: version must be 1 or 2; the envelope's
`"v"` field is the literal `1` from the source. -/
def python_to_json (o : PyVal) (version : Int) : Except SerErr JVal :=
  if version = 1 ∨ version = 2 then
    match py2js o [] with
    | .ok (data, refs) =>
        .ok (.obj [("v", .int 1), ("data", data), ("references", .arr refs)])
    | .error e => .error e
  else .error (.assertionError "version not in (1, 2)")

/-! ## Decoder (`_js2py` / `json_to_python`)

`_js2py` recurses into `references[refid]` with the same `references`, so on
adversarial tables (an entry whose decoding looks itself up) the Python
function does not terminate (`RecursionError`).  Witness: a chain of lookups
that repeats a table index repeats the entire argument pair and hence
recurses forever.  A terminating Python run therefore performs at most
`len(references)` nested lookups; `js2pyGo` carries the lookup continuation
and `js2pyFuel` bounds the lookup-chain depth, with `json_to_python` passing
`len(references) + 1`, which is exact: it exhausts only on inputs where
Python hits `RecursionError`. -/

mutual

def js2pyGo (cont : JVal → Except SerErr PyVal) : JVal → List JVal → Except SerErr PyVal
  | .str s, _ => .ok (.str s)
  | .int n, _ => .ok (.int n)
  | .null, _ => .ok .none
  | .arr items, refs =>
      match js2pyGoList cont items refs with
      | .ok l => .ok (.list l)
      | .error e => .error e
  | .obj fields, refs =>
      match lookupField fields "$" with
      | some d =>
          if d = .str "t" then
            match js2pyItems cont fields refs with
            | .ok l => .ok (.tuple l)
            | .error e => .error e
          else .error (.typeError "Unrecognized object")
      | Option.none =>
          match js2pyGoDict cont fields refs [] with
          | .ok entries => .ok (.dict entries)
          | .error e => .error e
termination_by structural o => o

/-- `data = o["items"]; tuple(_js2py(item, references, version) for item in
data)`: scan for the first `"items"` field and decode each iterated item.
For a string or object `data`, iteration yields one-character strings or
field-name strings, each of which `_js2py` maps to itself; those two cases
are inlined (extensionally identical to decoding each item, see
`js2pyItems_eq_jIter`). -/
def js2pyItems (cont : JVal → Except SerErr PyVal) :
    List (String × JVal) → List JVal → Except SerErr (List PyVal)
  | [], _ => .error (.keyError "items")
  | (k, v) :: rest, refs =>
      if k = "items" then
        match v with
        | .arr l => js2pyGoList cont l refs
        | .str s => .ok (s.data.map (fun c => .str (String.mk [c])))
        | .obj fs => .ok (fs.map (fun p => .str p.1))
        | .int _ => .error (.typeError "int object is not iterable")
        | .null => .error (.typeError "NoneType object is not iterable")
      else js2pyItems cont rest refs

def js2pyGoList (cont : JVal → Except SerErr PyVal) :
    List JVal → List JVal → Except SerErr (List PyVal)
  | [], _ => .ok []
  | x :: xs, refs =>
      match js2pyGo cont x refs with
      | .ok p =>
          match js2pyGoList cont xs refs with
          | .ok ps => .ok (p :: ps)
          | .error e => .error e
      | .error e => .error e

/-- One step per object field, in order.  For a digit-only name the source
asserts `0 <= refid < len(references)`, reads `references[refid]`, and then
executes `result[_js2py(k, ...)] = _js2py(v, ...)` — the assignment's right
side is evaluated before its target subscript, so the value is decoded
before the key. -/
def js2pyGoDict (cont : JVal → Except SerErr PyVal) :
    List (String × JVal) → List JVal → List (PyVal × PyVal) →
      Except SerErr (List (PyVal × PyVal))
  | [], _, acc => .ok acc
  | (name, v) :: rest, refs, acc =>
      if strIsDigit name then
        if h : strToNat name < refs.length then
          match js2pyGo cont v refs with
          | .ok pv =>
              match cont (refs.get ⟨strToNat name, h⟩) with
              | .ok k => js2pyGoDict cont rest refs (setKeyP acc k pv)
              | .error e => .error e
          | .error e => .error e
        else .error (.assertionError "refid out of range")
      else
        match js2pyGo cont v refs with
        | .ok pv => js2pyGoDict cont rest refs (setKeyP acc (.str name) pv)
        | .error e => .error e

end

/-- `_js2py(o, references, version)` with the lookup-chain bound `fuel`. -/
def js2pyFuel : Nat → JVal → List JVal → Except SerErr PyVal
  | 0, _, _ => .error .recursionError
  | fuel + 1, o, refs => js2pyGo (fun e => js2pyFuel fuel e refs) o refs

/-- `json_to_python(o)`: reads `o["v"]` (a `TypeError` if `o` is not an
object, a `KeyError` if absent), asserts the version is 1 or 2, reads
`o["references"]` and decodes `o["data"]` against it.  The source never
checks that `references` is a list; on an envelope whose `references` is not
a list Python would only fail upon the first reference lookup — the model
rejects it up front, which agrees with the source on every claim below. -/
def json_to_python (o : JVal) : Except SerErr PyVal :=
  match o with
  | .obj fields =>
      match jGet fields "v" with
      | .ok vj =>
          if vj = .int 1 ∨ vj = .int 2 then
            match jGet fields "references" with
            | .ok (.arr refs) =>
                match jGet fields "data" with
                | .ok data => js2pyFuel (refs.length + 1) data refs
                | .error e => .error e
            | .ok _ => .error (.typeError "references is not a list")
            | .error e => .error e
          else .error (.assertionError "version not in (1, 2)")
      | .error e => .error e
  | _ => .error (.typeError "envelope is not an object")

/-- Modelled from the spec: the surrounding JSON text serialize/parse pair is
assumed to be an order-preserving transcoding, i.e. the identity on the
JSON value model. -/
def jsonRoundTrip (j : JVal) : JVal := j

/-! ## Well-formedness of generalized values

The specification's data model (§3) restricts `Mapping` keys: a key is any
generalized value except a `Mapping`, and composite keys contain no nested
`Mapping` (Python's unhashable-key restriction), and the keys of one mapping
are pairwise distinct (a Python `dict` invariant). -/

mutual

/-- The value contains no `dict` anywhere (Python hashability for our types,
since `list`/`tuple` keys are generalized `Sequence`/`Tuple` keys). -/
def noDict : PyVal → Bool
  | .str _ => true
  | .int _ => true
  | .none => true
  | .tuple items => noDictList items
  | .list items => noDictList items
  | .dict _ => false

def noDictList : List PyVal → Bool
  | [] => true
  | x :: xs => noDict x && noDictList xs

end

/-- `k` does not occur (under Python `==`, i.e. structural equality) among
the keys of the remaining entries. -/
def keyNotIn (k : PyVal) : List (PyVal × PyVal) → Bool
  | [] => true
  | (k2, _) :: rest => !decide (k = k2) && keyNotIn k rest

mutual

/-- A well-formed generalized value: every mapping has pairwise-distinct
keys, no key equal to the string `"$"`, and every key is `Mapping`-free. -/
def wfB : PyVal → Bool
  | .str _ => true
  | .int _ => true
  | .none => true
  | .tuple items => wfBList items
  | .list items => wfBList items
  | .dict entries => wfBDict entries

def wfBList : List PyVal → Bool
  | [] => true
  | x :: xs => wfB x && wfBList xs

def wfBDict : List (PyVal × PyVal) → Bool
  | [] => true
  | (k, v) :: rest => noDict k && !keyDollar k && keyNotIn k rest && wfB v && wfBDict rest

end

mutual

/-- Every mapping key anywhere in the value is `Mapping`-free (the part of
well-formedness needed to classify encoder failures; allows `"$"` keys and
duplicate keys). -/
def hashKeysB : PyVal → Bool
  | .str _ => true
  | .int _ => true
  | .none => true
  | .tuple items => hashKeysBList items
  | .list items => hashKeysBList items
  | .dict entries => hashKeysBDict entries

def hashKeysBList : List PyVal → Bool
  | [] => true
  | x :: xs => hashKeysB x && hashKeysBList xs

def hashKeysBDict : List (PyVal × PyVal) → Bool
  | [] => true
  | (k, v) :: rest => noDict k && hashKeysB v && hashKeysBDict rest

end

/-! ## Compositional description of the encoder

`keyEnc k` is the encoding of a `Mapping`-free key (such an encoding never
touches the reference table and never fails), `encRefs x` is the list of
reference-table entries `x` contributes in depth-first left-to-right order,
and `encData x n` is the encoded form of `x` when the shared table already
holds `n` entries.  The theorem `py2js_spec` proves the source encoder equal
to this description on well-formed values. -/

mutual

def keyEnc : PyVal → JVal
  | .str s => .str s
  | .int n => .int n
  | .none => .null
  | .tuple items => .obj [("$", .str "t"), ("items", .arr (keyEncList items))]
  | .list items => .arr (keyEncList items)
  | .dict _ => .null

def keyEncList : List PyVal → List JVal
  | [] => []
  | x :: xs => keyEnc x :: keyEncList xs

end

mutual

def encRefs : PyVal → List JVal
  | .str _ => []
  | .int _ => []
  | .none => []
  | .tuple items => encRefsList items
  | .list items => encRefsList items
  | .dict entries => encRefsDict entries

def encRefsList : List PyVal → List JVal
  | [] => []
  | x :: xs => encRefs x ++ encRefsList xs

def encRefsDict : List (PyVal × PyVal) → List JVal
  | [] => []
  | (k, v) :: rest =>
      (if isDirectKey k then [] else [keyEnc k]) ++ encRefs v ++ encRefsDict rest

end

mutual

def encData : PyVal → Nat → JVal
  | .str s, _ => .str s
  | .int n, _ => .int n
  | .none, _ => .null
  | .tuple items, n => .obj [("$", .str "t"), ("items", .arr (encDataList items n))]
  | .list items, n => .arr (encDataList items n)
  | .dict entries, n => .obj (encDataDict entries n)

def encDataList : List PyVal → Nat → List JVal
  | [], _ => []
  | x :: xs, n => encData x n :: encDataList xs (n + (encRefs x).length)

def encDataDict : List (PyVal × PyVal) → Nat → List (String × JVal)
  | [], _ => []
  | (k, v) :: rest, n =>
      if isDirectKey k then
        (keyStr k, encData v n) :: encDataDict rest (n + (encRefs v).length)
      else
        (natToString n, encData v (n + 1)) :: encDataDict rest (n + 1 + (encRefs v).length)

end

/-! ## Basic lemmas -/

theorem setKey_fresh {fields : List (String × JVal)} {k : String} {v : JVal}
    (h : ∀ p ∈ fields, p.1 ≠ k) : setKey fields k v = fields ++ [(k, v)] := by
  have h' : fields.any (fun p => decide (p.1 = k)) = false := by
    simp only [List.any_eq_false, decide_eq_true_eq]
    exact h
  simp [setKey, h']

theorem setKeyP_fresh {entries : List (PyVal × PyVal)} {k v : PyVal}
    (h : ∀ p ∈ entries, p.1 ≠ k) : setKeyP entries k v = entries ++ [(k, v)] := by
  have h' : entries.any (fun p => decide (p.1 = k)) = false := by
    simp only [List.any_eq_false, decide_eq_true_eq]
    exact h
  simp [setKeyP, h']

theorem lookupField_eq_none {fields : List (String × JVal)} {key : String}
    (h : ∀ p ∈ fields, p.1 ≠ key) : lookupField fields key = Option.none := by
  induction fields with
  | nil => rfl
  | cons p rest ih =>
      obtain ⟨k, v⟩ := p
      have hk : k ≠ key := h (k, v) (by simp)
      simp only [lookupField, if_neg hk]
      exact ih (fun q hq => h q (List.mem_cons_of_mem _ hq))

/-! ## Step lemmas (one per source branch, packaging the match reductions) -/

theorem py2js_tuple_step {items refs js refs1} (h : py2jsList items refs = .ok (js, refs1)) :
    py2js (.tuple items) refs = .ok (.obj [("$", .str "t"), ("items", .arr js)], refs1) := by
  simp [py2js, h]

theorem py2js_list_step {items refs js refs1} (h : py2jsList items refs = .ok (js, refs1)) :
    py2js (.list items) refs = .ok (.arr js, refs1) := by
  simp [py2js, h]

theorem py2js_dict_step {entries refs fields refs1}
    (h : py2jsDict entries refs [] = .ok (fields, refs1)) :
    py2js (.dict entries) refs = .ok (.obj fields, refs1) := by
  simp [py2js, h]

theorem py2jsList_cons_step {x xs refs j refs1 js refs2}
    (hx : py2js x refs = .ok (j, refs1)) (hxs : py2jsList xs refs1 = .ok (js, refs2)) :
    py2jsList (x :: xs) refs = .ok (j :: js, refs2) := by
  simp [py2jsList, hx, hxs]

theorem js2pyGo_arr_step {cont l refs ps} (h : js2pyGoList cont l refs = .ok ps) :
    js2pyGo cont (.arr l) refs = .ok (.list ps) := by
  simp [js2pyGo, h]

theorem js2pyItems_marker {cont d l rest refs} :
    js2pyItems cont (("$", d) :: ("items", .arr l) :: rest) refs = js2pyGoList cont l refs := by
  simp [js2pyItems]

theorem js2pyGo_marker_step {cont l rest refs ps} (h : js2pyGoList cont l refs = .ok ps) :
    js2pyGo cont (.obj (("$", .str "t") :: ("items", .arr l) :: rest)) refs =
      .ok (.tuple ps) := by
  simp [js2pyGo, lookupField, js2pyItems, h]

theorem js2pyGo_objPlain_step {cont fields refs es}
    (hn : lookupField fields "$" = Option.none)
    (h : js2pyGoDict cont fields refs [] = .ok es) :
    js2pyGo cont (.obj fields) refs = .ok (.dict es) := by
  simp [js2pyGo, hn, h]

theorem js2pyGoList_cons_step {cont x xs refs p ps}
    (hx : js2pyGo cont x refs = .ok p) (hxs : js2pyGoList cont xs refs = .ok ps) :
    js2pyGoList cont (x :: xs) refs = .ok (p :: ps) := by
  simp [js2pyGoList, hx, hxs]

/-! ## The encoding of a `Mapping`-free key ignores and never extends the
reference table, and decodes back to the key under any lookup continuation
and any table. -/

mutual

theorem py2js_key : ∀ (k : PyVal), noDict k = true → ∀ refs,
    py2js k refs = .ok (keyEnc k, refs)
  | .str s, _, refs => rfl
  | .int n, _, refs => rfl
  | .none, _, refs => rfl
  | .tuple items, h, refs => by
      rw [py2js, py2jsList_key items (by simpa [noDict] using h) refs]
      rfl
  | .list items, h, refs => by
      rw [py2js, py2jsList_key items (by simpa [noDict] using h) refs]
      rfl

theorem py2jsList_key : ∀ (xs : List PyVal), noDictList xs = true → ∀ refs,
    py2jsList xs refs = .ok (keyEncList xs, refs)
  | [], _, refs => rfl
  | x :: xs, h, refs => by
      have hx : noDict x = true := by
        have := h; simp only [noDictList, Bool.and_eq_true] at this; exact this.1
      have hxs : noDictList xs = true := by
        have := h; simp only [noDictList, Bool.and_eq_true] at this; exact this.2
      exact py2jsList_cons_step (py2js_key x hx refs) (py2jsList_key xs hxs refs)

end

mutual

theorem js2pyGo_key : ∀ (k : PyVal), noDict k = true →
    ∀ (cont : JVal → Except SerErr PyVal) (refs : List JVal),
    js2pyGo cont (keyEnc k) refs = .ok k
  | .str s, _, cont, refs => rfl
  | .int n, _, cont, refs => rfl
  | .none, _, cont, refs => rfl
  | .tuple items, h, cont, refs =>
      js2pyGo_marker_step (js2pyGoList_key items (by simpa [noDict] using h) cont refs)
  | .list items, h, cont, refs =>
      js2pyGo_arr_step (js2pyGoList_key items (by simpa [noDict] using h) cont refs)

theorem js2pyGoList_key : ∀ (xs : List PyVal), noDictList xs = true →
    ∀ (cont : JVal → Except SerErr PyVal) (refs : List JVal),
    js2pyGoList cont (keyEncList xs) refs = .ok xs
  | [], _, cont, refs => rfl
  | x :: xs, h, cont, refs => by
      have hx : noDict x = true := by
        have := h; simp only [noDictList, Bool.and_eq_true] at this; exact this.1
      have hxs : noDictList xs = true := by
        have := h; simp only [noDictList, Bool.and_eq_true] at this; exact this.2
      exact js2pyGoList_cons_step (js2pyGo_key x hx cont refs)
        (js2pyGoList_key xs hxs cont refs)

end

/-! ## Field names produced by the encoder -/

theorem keyNotIn_spec {k : PyVal} {entries : List (PyVal × PyVal)}
    (h : keyNotIn k entries = true) : ∀ k2 ∈ entries.map Prod.fst, k ≠ k2 := by
  induction entries with
  | nil => simp
  | cons p rest ih =>
      obtain ⟨k2, v2⟩ := p
      simp only [keyNotIn, Bool.and_eq_true, Bool.not_eq_true', decide_eq_false_iff_not] at h
      simp only [List.map_cons, List.mem_cons]
      rintro x (rfl | hx)
      · exact h.1
      · exact ih h.2 x hx

theorem isDirectKey_spec {k : PyVal} (h : isDirectKey k = true) :
    k = .str (keyStr k) ∧ strIsDigit (keyStr k) = false := by
  cases k <;> simp_all [isDirectKey, keyStr]

/-- Every field name in the encoded form of a mapping is either a non-digit
string that is itself a direct key of the mapping, or the decimal string of
a table index at least the starting index. -/
theorem encDataDict_names : ∀ (entries : List (PyVal × PyVal)) (n : Nat) (name : String),
    name ∈ (encDataDict entries n).map Prod.fst →
    (strIsDigit name = false ∧ PyVal.str name ∈ entries.map Prod.fst) ∨
      (∃ m, n ≤ m ∧ name = natToString m) := by
  intro entries
  induction entries with
  | nil => simp [encDataDict]
  | cons p rest ih =>
      obtain ⟨k, v⟩ := p
      intro n name hname
      by_cases hd : isDirectKey k = true
      · simp only [encDataDict, if_pos hd, List.map_cons, List.mem_cons] at hname
        rcases hname with rfl | hname
        · left
          obtain ⟨hk, hdig⟩ := isDirectKey_spec hd
          exact ⟨hdig, by simp [← hk]⟩
        · rcases ih (n + (encRefs v).length) name hname with ⟨h1, h2⟩ | ⟨m, hm, rfl⟩
          · exact Or.inl ⟨h1, by simp [h2]⟩
          · exact Or.inr ⟨m, by omega, rfl⟩
      · simp only [encDataDict, if_neg hd, List.map_cons, List.mem_cons] at hname
        rcases hname with rfl | hname
        · exact Or.inr ⟨n, le_refl n, rfl⟩
        · rcases ih (n + 1 + (encRefs v).length) name hname with ⟨h1, h2⟩ | ⟨m, hm, rfl⟩
          · exact Or.inl ⟨h1, by simp [h2]⟩
          · exact Or.inr ⟨m, by omega, rfl⟩

/-- In the direct-key case the head field name differs from every later
field name of the same encoded mapping. -/
theorem encDataDict_head_fresh_direct {k : PyVal} {rest : List (PyVal × PyVal)}
    (hd : isDirectKey k = true) (hnotin : keyNotIn k rest = true) :
    ∀ (n' : Nat), ∀ name ∈ (encDataDict rest n').map Prod.fst, keyStr k ≠ name := by
  intro n' name hname
  obtain ⟨hk, hdig⟩ := isDirectKey_spec hd
  rcases encDataDict_names rest n' name hname with ⟨h1, h2⟩ | ⟨m, hm, rfl⟩
  · intro hcontra
    subst hcontra
    exact keyNotIn_spec hnotin _ h2 (by rw [← hk])
  · intro hcontra
    rw [hcontra, strIsDigit_natToString m] at hdig
    simp at hdig

/-- In the reference-table case the head field name differs from every later
field name of the same encoded mapping. -/
theorem encDataDict_head_fresh_table {rest : List (PyVal × PyVal)} :
    ∀ (n n' : Nat), n < n' → ∀ name ∈ (encDataDict rest n').map Prod.fst,
      natToString n ≠ name := by
  intro n n' hlt name hname
  rcases encDataDict_names rest n' name hname with ⟨h1, _⟩ | ⟨m, hm, rfl⟩
  · intro hcontra
    rw [← hcontra, strIsDigit_natToString n] at h1
    simp at h1
  · intro hcontra
    have := natToString_injective hcontra
    omega

theorem keyAllowed_of_noDict {k : PyVal} (h : noDict k = true) : keyAllowed k = true := by
  cases k <;> simp_all [noDict, keyAllowed]

theorem keyStr_of_direct {k : PyVal} (h : isDirectKey k = true) : PyVal.str (keyStr k) = k :=
  (isDirectKey_spec h).1.symm

/-- Step lemma for a direct string key in the source's dict loop. -/
theorem py2jsDict_direct_step {k v : PyVal} {rest : List (PyVal × PyVal)}
    {refs : List JVal} {acc : List (String × JVal)} {jv : JVal} {refs1 : List JVal}
    (hdollar : keyDollar k = false) (hdir : isDirectKey k = true)
    (hval : py2js v refs = .ok (jv, refs1)) :
    py2jsDict ((k, v) :: rest) refs acc = py2jsDict rest refs1 (setKey acc (keyStr k) jv) := by
  simp [py2jsDict, hdollar, hdir, hval]

/-- Step lemma for a reference-table key in the source's dict loop:
`refid = len(references)` is taken before the key is encoded, the encoded
key is appended after, and then the value is encoded. -/
theorem py2jsDict_table_step {k v : PyVal} {rest : List (PyVal × PyVal)}
    {refs : List JVal} {acc : List (String × JVal)} {jk : JVal} {refs1 : List JVal}
    {jv : JVal} {refs2 : List JVal}
    (hdollar : keyDollar k = false) (hdir : isDirectKey k = false)
    (hka : keyAllowed k = true)
    (hkey : py2js k refs = .ok (jk, refs1))
    (hval : py2js v (refs1 ++ [jk]) = .ok (jv, refs2)) :
    py2jsDict ((k, v) :: rest) refs acc =
      py2jsDict rest refs2 (setKey acc (natToString refs.length) jv) := by
  simp [py2jsDict, hdollar, hdir, hka, hkey, hval]

/-! ## The encoder equals its compositional description on well-formed values -/

mutual

theorem py2js_spec : ∀ (x : PyVal), wfB x = true → ∀ (refs : List JVal),
    py2js x refs = .ok (encData x refs.length, refs ++ encRefs x)
  | .str s, _, refs => by simp [py2js, encData, encRefs]
  | .int n, _, refs => by simp [py2js, encData, encRefs]
  | .none, _, refs => by simp [py2js, encData, encRefs]
  | .tuple items, h, refs => by
      have hl := py2jsList_spec items (by simpa [wfB] using h) refs
      rw [encData, encRefs]
      exact py2js_tuple_step hl
  | .list items, h, refs => by
      have hl := py2jsList_spec items (by simpa [wfB] using h) refs
      rw [encData, encRefs]
      exact py2js_list_step hl
  | .dict entries, h, refs => by
      have hd := py2jsDict_spec entries (by simpa [wfB] using h) refs []
        (by intro name hname p hp; simp at hp)
      rw [encData, encRefs]
      simpa using py2js_dict_step (by simpa using hd)

theorem py2jsList_spec : ∀ (xs : List PyVal), wfBList xs = true → ∀ (refs : List JVal),
    py2jsList xs refs = .ok (encDataList xs refs.length, refs ++ encRefsList xs)
  | [], _, refs => by simp [py2jsList, encDataList, encRefsList]
  | x :: xs, h, refs => by
      have hx : wfB x = true := by
        have := h; simp only [wfBList, Bool.and_eq_true] at this; exact this.1
      have hxs : wfBList xs = true := by
        have := h; simp only [wfBList, Bool.and_eq_true] at this; exact this.2
      have h1 := py2js_spec x hx refs
      have h2 := py2jsList_spec xs hxs (refs ++ encRefs x)
      rw [List.length_append] at h2
      rw [encDataList, encRefsList]
      have := py2jsList_cons_step h1 h2
      simpa [List.append_assoc] using this

theorem py2jsDict_spec : ∀ (entries : List (PyVal × PyVal)), wfBDict entries = true →
    ∀ (refs : List JVal) (acc : List (String × JVal)),
    (∀ name ∈ (encDataDict entries refs.length).map Prod.fst, ∀ p ∈ acc, p.1 ≠ name) →
    py2jsDict entries refs acc =
      .ok (acc ++ encDataDict entries refs.length, refs ++ encRefsDict entries)
  | [], _, refs, acc, _ => by simp [py2jsDict, encDataDict, encRefsDict]
  | (k, v) :: rest, h, refs, acc, hfresh => by
      have hparts : noDict k = true ∧ keyDollar k = false ∧ keyNotIn k rest = true ∧
          wfB v = true ∧ wfBDict rest = true := by
        have := h
        simp only [wfBDict, Bool.and_eq_true, Bool.not_eq_true'] at this
        tauto
      obtain ⟨hnd, hdollar, hnotin, hv, hrest⟩ := hparts
      by_cases hdir : isDirectKey k = true
      · -- direct string key
        have hval := py2js_spec v hv refs
        have hname1 : (encDataDict ((k, v) :: rest) refs.length).map Prod.fst =
            keyStr k :: (encDataDict rest (refs.length + (encRefs v).length)).map Prod.fst := by
          simp [encDataDict, hdir]
        have hsk : setKey acc (keyStr k) (encData v refs.length) =
            acc ++ [(keyStr k, encData v refs.length)] := by
          refine setKey_fresh ?_
          intro p hp
          exact hfresh (keyStr k) (by rw [hname1]; simp) p hp
        have hrec := py2jsDict_spec rest hrest (refs ++ encRefs v)
            (acc ++ [(keyStr k, encData v refs.length)]) ?_
        · rw [py2jsDict_direct_step hdollar hdir hval, hsk, hrec, List.length_append]
          rw [encDataDict, if_pos hdir, encRefsDict, if_pos hdir]
          simp [List.append_assoc]
        · -- freshness for the extended accumulator
          intro name hname p hp
          rw [List.length_append] at hname
          rcases List.mem_append.mp hp with hpacc | hphead
          · exact hfresh name (by rw [hname1]; simp [hname]) p hpacc
          · simp only [List.mem_singleton] at hphead
            subst hphead
            exact encDataDict_head_fresh_direct hdir hnotin _ name hname
      · -- key goes through the reference table
        have hka : keyAllowed k = true := keyAllowed_of_noDict hnd
        have hkey := py2js_key k hnd refs
        have hval := py2js_spec v hv (refs ++ [keyEnc k])
        rw [List.length_append, List.length_singleton] at hval
        have hdir' : isDirectKey k = false := by simpa using hdir
        have hname1 : (encDataDict ((k, v) :: rest) refs.length).map Prod.fst =
            natToString refs.length ::
              (encDataDict rest (refs.length + 1 + (encRefs v).length)).map Prod.fst := by
          simp [encDataDict, hdir']
        have hsk : setKey acc (natToString refs.length) (encData v (refs.length + 1)) =
            acc ++ [(natToString refs.length, encData v (refs.length + 1))] := by
          refine setKey_fresh ?_
          intro p hp
          exact hfresh (natToString refs.length) (by rw [hname1]; simp) p hp
        have hrec := py2jsDict_spec rest hrest (refs ++ [keyEnc k] ++ encRefs v)
            (acc ++ [(natToString refs.length, encData v (refs.length + 1))]) ?_
        · rw [py2jsDict_table_step hdollar hdir' hka hkey hval, hsk, hrec]
          rw [List.length_append, List.length_append, List.length_singleton]
          rw [encDataDict, if_neg (by simp [hdir']), encRefsDict, if_neg (by simp [hdir'])]
          simp [List.append_assoc]
        · intro name hname p hp
          simp only [List.length_append, List.length_singleton] at hname
          rcases List.mem_append.mp hp with hpacc | hphead
          · exact hfresh name (by rw [hname1]; simp [hname]) p hpacc
          · simp only [List.mem_singleton] at hphead
            subst hphead
            exact encDataDict_head_fresh_table refs.length _ (by omega) name hname

end

/-! ## Decoder step lemmas -/

theorem js2pyGoDict_direct_step {cont : JVal → Except SerErr PyVal} {name : String}
    {v : JVal} {rest : List (String × JVal)} {refs : List JVal}
    {acc : List (PyVal × PyVal)} {pv : PyVal}
    (hnd : strIsDigit name = false) (hval : js2pyGo cont v refs = .ok pv) :
    js2pyGoDict cont ((name, v) :: rest) refs acc =
      js2pyGoDict cont rest refs (setKeyP acc (.str name) pv) := by
  simp [js2pyGoDict, hnd, hval]

theorem js2pyGoDict_ref_step {cont : JVal → Except SerErr PyVal} {name : String}
    {v : JVal} {rest : List (String × JVal)} {refs : List JVal}
    {acc : List (PyVal × PyVal)} {pv k : PyVal}
    (hd : strIsDigit name = true) (h : strToNat name < refs.length)
    (hval : js2pyGo cont v refs = .ok pv)
    (hkey : cont (refs[strToNat name]) = .ok k) :
    js2pyGoDict cont ((name, v) :: rest) refs acc =
      js2pyGoDict cont rest refs (setKeyP acc k pv) := by
  simp [js2pyGoDict, hd, h, hval, hkey]

theorem js2pyGoDict_oob_step {cont : JVal → Except SerErr PyVal} {name : String}
    {v : JVal} {rest : List (String × JVal)} {refs : List JVal}
    {acc : List (PyVal × PyVal)}
    (hd : strIsDigit name = true) (h : ¬ strToNat name < refs.length) :
    js2pyGoDict cont ((name, v) :: rest) refs acc =
      .error (.assertionError "refid out of range") := by
  simp [js2pyGoDict, hd, h]

theorem wfBDict_no_dollar {entries : List (PyVal × PyVal)} (h : wfBDict entries = true) :
    ∀ k ∈ entries.map Prod.fst, keyDollar k = false := by
  induction entries with
  | nil => simp
  | cons p rest ih =>
      obtain ⟨k, v⟩ := p
      simp only [wfBDict, Bool.and_eq_true, Bool.not_eq_true'] at h
      obtain ⟨⟨⟨⟨_, hdollar⟩, _⟩, _⟩, hrest⟩ := h
      simp only [List.map_cons, List.mem_cons]
      rintro x (rfl | hx)
      · exact hdollar
      · exact ih hrest x hx

/-- A well-formed encoded mapping has no `"$"` field, so the decoder takes
the plain-object branch. -/
theorem encDataDict_no_dollar {entries : List (PyVal × PyVal)} {n : Nat}
    (h : wfBDict entries = true) :
    lookupField (encDataDict entries n) "$" = Option.none := by
  refine lookupField_eq_none ?_
  intro p hp hcontra
  have hname := encDataDict_names entries n p.1 (List.mem_map_of_mem Prod.fst hp)
  rw [hcontra] at hname
  rcases hname with ⟨_, h2⟩ | ⟨m, _, hm⟩
  · have := wfBDict_no_dollar h _ h2
    simp [keyDollar] at this
  · have := strIsDigit_natToString m
    rw [← hm] at this
    exact absurd this (by decide)

theorem getElem_append_len {α : Type} (l1 : List α) (e : α) (l2 : List α)
    (h : l1.length < (l1 ++ e :: l2).length) : (l1 ++ e :: l2)[l1.length] = e := by
  induction l1 with
  | nil => rfl
  | cons a l ih => exact ih (by simp only [List.length_append, List.length_cons]; omega)

/-! ## The decoder inverts the encoder on well-formed values

The table hypothesis keeps the full reference table `T` abstract: the
encoded form of `x` sits between a prefix `pre` (entries appended before `x`
was reached) and a suffix `post` (entries appended after), and the lookup
continuation `cont` correctly decodes every `Mapping`-free key entry of
`T`. -/

mutual

theorem js2pyGo_spec : ∀ (x : PyVal), wfB x = true →
    ∀ (T pre post : List JVal) (cont : JVal → Except SerErr PyVal),
    T = pre ++ encRefs x ++ post →
    (∀ k, noDict k = true → keyEnc k ∈ T → cont (keyEnc k) = .ok k) →
    js2pyGo cont (encData x pre.length) T = .ok x
  | .str s, _, T, pre, post, cont, _, _ => rfl
  | .int n, _, T, pre, post, cont, _, _ => rfl
  | .none, _, T, pre, post, cont, _, _ => rfl
  | .tuple items, h, T, pre, post, cont, hT, hcont => by
      rw [encRefs] at hT
      have hl := js2pyGoList_spec items (by simpa [wfB] using h) T pre post cont hT hcont
      rw [encData]
      exact js2pyGo_marker_step hl
  | .list items, h, T, pre, post, cont, hT, hcont => by
      rw [encRefs] at hT
      have hl := js2pyGoList_spec items (by simpa [wfB] using h) T pre post cont hT hcont
      rw [encData]
      exact js2pyGo_arr_step hl
  | .dict entries, h, T, pre, post, cont, hT, hcont => by
      have hwf : wfBDict entries = true := by simpa [wfB] using h
      rw [encRefs] at hT
      have hd := js2pyGoDict_spec entries hwf T pre post cont [] hT hcont
        (by intro p hp; simp at hp)
      rw [encData]
      exact js2pyGo_objPlain_step (encDataDict_no_dollar hwf) (by simpa using hd)

theorem js2pyGoList_spec : ∀ (xs : List PyVal), wfBList xs = true →
    ∀ (T pre post : List JVal) (cont : JVal → Except SerErr PyVal),
    T = pre ++ encRefsList xs ++ post →
    (∀ k, noDict k = true → keyEnc k ∈ T → cont (keyEnc k) = .ok k) →
    js2pyGoList cont (encDataList xs pre.length) T = .ok xs
  | [], _, T, pre, post, cont, _, _ => rfl
  | x :: xs, h, T, pre, post, cont, hT, hcont => by
      have hx : wfB x = true := by
        have := h; simp only [wfBList, Bool.and_eq_true] at this; exact this.1
      have hxs : wfBList xs = true := by
        have := h; simp only [wfBList, Bool.and_eq_true] at this; exact this.2
      have h1 := js2pyGo_spec x hx T pre (encRefsList xs ++ post) cont
        (by rw [hT, encRefsList]; simp [List.append_assoc]) hcont
      have h2 := js2pyGoList_spec xs hxs T (pre ++ encRefs x) post cont
        (by rw [hT, encRefsList]; simp [List.append_assoc]) hcont
      rw [List.length_append] at h2
      rw [encDataList]
      exact js2pyGoList_cons_step h1 h2

theorem js2pyGoDict_spec : ∀ (entries : List (PyVal × PyVal)), wfBDict entries = true →
    ∀ (T pre post : List JVal) (cont : JVal → Except SerErr PyVal)
      (acc : List (PyVal × PyVal)),
    T = pre ++ encRefsDict entries ++ post →
    (∀ k, noDict k = true → keyEnc k ∈ T → cont (keyEnc k) = .ok k) →
    (∀ p ∈ acc, ∀ q ∈ entries, p.1 ≠ q.1) →
    js2pyGoDict cont (encDataDict entries pre.length) T acc = .ok (acc ++ entries)
  | [], _, T, pre, post, cont, acc, _, _, _ => by simp [encDataDict, js2pyGoDict]
  | (k, v) :: rest, h, T, pre, post, cont, acc, hT, hcont, haccd => by
      have hparts : noDict k = true ∧ keyDollar k = false ∧ keyNotIn k rest = true ∧
          wfB v = true ∧ wfBDict rest = true := by
        have := h
        simp only [wfBDict, Bool.and_eq_true, Bool.not_eq_true'] at this
        tauto
      obtain ⟨hnd, hdollar, hnotin, hv, hrest⟩ := hparts
      by_cases hdir : isDirectKey k = true
      · -- direct string key: decoded as itself
        obtain ⟨hk, hdig⟩ := isDirectKey_spec hdir
        rw [encDataDict, if_pos hdir]
        have hval := js2pyGo_spec v hv T pre (encRefsDict rest ++ post) cont
          (by rw [hT, encRefsDict, if_pos hdir]; simp [List.append_assoc]) hcont
        rw [js2pyGoDict_direct_step hdig hval, keyStr_of_direct hdir]
        have hsk : setKeyP acc k v = acc ++ [(k, v)] :=
          setKeyP_fresh (fun p hp => haccd p hp (k, v) (by simp))
        rw [hsk]
        have hrec := js2pyGoDict_spec rest hrest T (pre ++ encRefs v) post cont
            (acc ++ [(k, v)])
            (by rw [hT, encRefsDict, if_pos hdir]; simp [List.append_assoc]) hcont ?_
        · rw [List.length_append] at hrec
          rw [hrec]
          simp
        · intro p hp q hq
          rcases List.mem_append.mp hp with hpacc | hphead
          · exact haccd p hpacc q (List.mem_cons_of_mem _ hq)
          · simp only [List.mem_singleton] at hphead
            subst hphead
            exact keyNotIn_spec hnotin q.1 (List.mem_map_of_mem Prod.fst hq)
      · -- reference-table key: resolved through the table
        have hdir' : isDirectKey k = false := by simpa using hdir
        rw [encDataDict, if_neg (by simp [hdir'])]
        have hTn : T = pre ++ keyEnc k :: (encRefs v ++ encRefsDict rest ++ post) := by
          rw [hT, encRefsDict, if_neg (by simp [hdir'])]
          simp [List.append_assoc]
        have hidx : strToNat (natToString pre.length) = pre.length :=
          strToNat_natToString pre.length
        have hbound : strToNat (natToString pre.length) < T.length := by
          rw [hidx, hTn]
          simp only [List.length_append, List.length_cons]
          omega
        have hgetE : T[strToNat (natToString pre.length)] = keyEnc k := by
          simp only [hidx, hTn]
          exact getElem_append_len pre (keyEnc k) _ (by rw [hTn] at hbound; omega)
        have hval := js2pyGo_spec v hv T (pre ++ [keyEnc k]) (encRefsDict rest ++ post) cont
          (by rw [hT, encRefsDict, if_neg (by simp [hdir'])]; simp [List.append_assoc]) hcont
        rw [List.length_append, List.length_singleton] at hval
        have hkeyd : cont (T[strToNat (natToString pre.length)]) = .ok k := by
          rw [hgetE]
          exact hcont k hnd (by rw [hTn]; simp)
        rw [js2pyGoDict_ref_step (strIsDigit_natToString pre.length) hbound hval hkeyd]
        have hsk : setKeyP acc k v = acc ++ [(k, v)] :=
          setKeyP_fresh (fun p hp => haccd p hp (k, v) (by simp))
        rw [hsk]
        have hrec := js2pyGoDict_spec rest hrest T (pre ++ [keyEnc k] ++ encRefs v) post cont
            (acc ++ [(k, v)])
            (by rw [hT, encRefsDict, if_neg (by simp [hdir'])]; simp [List.append_assoc]) hcont ?_
        · rw [List.length_append, List.length_append, List.length_singleton] at hrec
          rw [hrec]
          simp
        · intro p hp q hq
          rcases List.mem_append.mp hp with hpacc | hphead
          · exact haccd p hpacc q (List.mem_cons_of_mem _ hq)
          · simp only [List.mem_singleton] at hphead
            subst hphead
            exact keyNotIn_spec hnotin q.1 (List.mem_map_of_mem Prod.fst hq)

end

/-! ## Top-level round trip -/

/-- On a well-formed value and an accepted version, `python_to_json`
succeeds and produces the envelope described by `encData`/`encRefs` (with
the hard-coded `"v": 1` of the source). -/
theorem python_to_json_spec (x : PyVal) (v : Int) (hwf : wfB x = true)
    (hv : v = 1 ∨ v = 2) :
    python_to_json x v =
      .ok (.obj [("v", .int 1), ("data", encData x 0), ("references", .arr (encRefs x))]) := by
  have hx := py2js_spec x hwf []
  simp only [List.nil_append, List.length_nil] at hx
  simp [python_to_json, hv, hx]

/-- Decoding the produced envelope recovers the original value: the lookup
budget `len(references) + 1` never runs out because every reference-table
entry is the encoding of a `Mapping`-free key, which decodes without any
further table lookup. -/
theorem json_to_python_spec (x : PyVal) (hwf : wfB x = true) :
    json_to_python
      (.obj [("v", .int 1), ("data", encData x 0), ("references", .arr (encRefs x))]) =
      .ok x := by
  have hcont : ∀ k, noDict k = true → keyEnc k ∈ encRefs x →
      js2pyFuel (encRefs x).length (keyEnc k) (encRefs x) = .ok k := by
    intro k hnd hmem
    cases hL : encRefs x with
    | nil => rw [hL] at hmem; simp at hmem
    | cons a l =>
        rw [hL] at *
        rw [List.length_cons, js2pyFuel]
        exact js2pyGo_key k hnd _ _
  have hgo := js2pyGo_spec x hwf (encRefs x) [] []
    (fun e => js2pyFuel (encRefs x).length e (encRefs x)) (by simp) hcont
  simp only [List.length_nil] at hgo
  simp [json_to_python, jGet, lookupField, js2pyFuel]
  exact hgo

/-! ## Error classification for the encoder (reserved-key rejection)

On values whose mapping keys are all `Mapping`-free, the only error the
encoder can raise is the `ValueError` for the reserved key
(`_py2js`'s trailing `raise TypeError` is unreachable on modelled values,
and the key-type assert needs a `Mapping`-typed key). -/

/-- The single `ValueError` the source can raise. -/
def reservedKeyError : SerErr := .valueError "dict cannot contain reserved key \x22$\x22"

mutual

theorem py2js_err : ∀ (x : PyVal), hashKeysB x = true → ∀ (refs : List JVal),
    (∃ j r, py2js x refs = .ok (j, r)) ∨ py2js x refs = .error reservedKeyError
  | .str s, _, refs => Or.inl ⟨_, _, rfl⟩
  | .int n, _, refs => Or.inl ⟨_, _, rfl⟩
  | .none, _, refs => Or.inl ⟨_, _, rfl⟩
  | .tuple items, h, refs => by
      rcases py2jsList_err items (by simpa [hashKeysB] using h) refs with ⟨js, r, hok⟩ | herr
      · exact Or.inl ⟨_, _, py2js_tuple_step hok⟩
      · right
        simp [py2js, herr]
  | .list items, h, refs => by
      rcases py2jsList_err items (by simpa [hashKeysB] using h) refs with ⟨js, r, hok⟩ | herr
      · exact Or.inl ⟨_, _, py2js_list_step hok⟩
      · right
        simp [py2js, herr]
  | .dict entries, h, refs => by
      rcases py2jsDict_err entries (by simpa [hashKeysB] using h) refs [] with ⟨fs, r, hok⟩ | herr
      · exact Or.inl ⟨_, _, py2js_dict_step hok⟩
      · right
        simp [py2js, herr]

theorem py2jsList_err : ∀ (xs : List PyVal), hashKeysBList xs = true → ∀ (refs : List JVal),
    (∃ js r, py2jsList xs refs = .ok (js, r)) ∨ py2jsList xs refs = .error reservedKeyError
  | [], _, refs => Or.inl ⟨_, _, rfl⟩
  | x :: xs, h, refs => by
      have hx : hashKeysB x = true := by
        have := h; simp only [hashKeysBList, Bool.and_eq_true] at this; exact this.1
      have hxs : hashKeysBList xs = true := by
        have := h; simp only [hashKeysBList, Bool.and_eq_true] at this; exact this.2
      rcases py2js_err x hx refs with ⟨j, r, hok⟩ | herr
      · rcases py2jsList_err xs hxs r with ⟨js, r2, hok2⟩ | herr2
        · exact Or.inl ⟨_, _, py2jsList_cons_step hok hok2⟩
        · right
          simp [py2jsList, hok, herr2]
      · right
        simp [py2jsList, herr]

theorem py2jsDict_err : ∀ (entries : List (PyVal × PyVal)), hashKeysBDict entries = true →
    ∀ (refs : List JVal) (acc : List (String × JVal)),
    (∃ fs r, py2jsDict entries refs acc = .ok (fs, r)) ∨
      py2jsDict entries refs acc = .error reservedKeyError
  | [], _, refs, acc => Or.inl ⟨_, _, rfl⟩
  | (k, v) :: rest, h, refs, acc => by
      have hparts : noDict k = true ∧ hashKeysB v = true ∧ hashKeysBDict rest = true := by
        have := h
        simp only [hashKeysBDict, Bool.and_eq_true] at this
        tauto
      obtain ⟨hnd, hv, hrest⟩ := hparts
      by_cases hdollar : keyDollar k = true
      · right
        simp [py2jsDict, hdollar, reservedKeyError]
      · have hdollar' : keyDollar k = false := by simpa using hdollar
        by_cases hdir : isDirectKey k = true
        · rcases py2js_err v hv refs with ⟨jv, r, hok⟩ | herr
          · rw [py2jsDict_direct_step hdollar' hdir hok]
            exact py2jsDict_err rest hrest r (setKey acc (keyStr k) jv)
          · right
            simp [py2jsDict, hdollar', hdir, herr]
        · have hdir' : isDirectKey k = false := by simpa using hdir
          have hka : keyAllowed k = true := keyAllowed_of_noDict hnd
          have hkey := py2js_key k hnd refs
          rcases py2js_err v hv (refs ++ [keyEnc k]) with ⟨jv, r, hok⟩ | herr
          · rw [py2jsDict_table_step hdollar' hdir' hka hkey hok]
            exact py2jsDict_err rest hrest r (setKey acc (natToString refs.length) jv)
          · right
            simp [py2jsDict, hdollar', hdir', hka, hkey, herr]

end

/-- A mapping that directly contains the key `"$"` always fails with the
reserved-key `ValueError` (earlier entries can only fail with that very same
error, and if they all succeed the `"$"` entry itself raises it). -/
theorem py2jsDict_dollar : ∀ (entries : List (PyVal × PyVal)),
    hashKeysBDict entries = true → (PyVal.str "$") ∈ entries.map Prod.fst →
    ∀ (refs : List JVal) (acc : List (String × JVal)),
    py2jsDict entries refs acc = .error reservedKeyError := by
  intro entries
  induction entries with
  | nil => simp
  | cons p rest ih =>
      obtain ⟨k, v⟩ := p
      intro h hmem refs acc
      have hparts : noDict k = true ∧ hashKeysB v = true ∧ hashKeysBDict rest = true := by
        have := h
        simp only [hashKeysBDict, Bool.and_eq_true] at this
        tauto
      obtain ⟨hnd, hv, hrest⟩ := hparts
      by_cases hdollar : keyDollar k = true
      · simp [py2jsDict, hdollar, reservedKeyError]
      · have hdollar' : keyDollar k = false := by simpa using hdollar
        have hmem' : (PyVal.str "$") ∈ rest.map Prod.fst := by
          simp only [List.map_cons, List.mem_cons] at hmem
          rcases hmem with heq | hmem
          · exfalso
            rw [← heq] at hdollar'
            simp [keyDollar] at hdollar'
          · exact hmem
        by_cases hdir : isDirectKey k = true
        · rcases py2js_err v hv refs with ⟨jv, r, hok⟩ | herr
          · rw [py2jsDict_direct_step hdollar' hdir hok]
            exact ih hrest hmem' r _
          · simp [py2jsDict, hdollar', hdir, herr]
        · have hdir' : isDirectKey k = false := by simpa using hdir
          have hka : keyAllowed k = true := keyAllowed_of_noDict hnd
          have hkey := py2js_key k hnd refs
          rcases py2js_err v hv (refs ++ [keyEnc k]) with ⟨jv, r, hok⟩ | herr
          · rw [py2jsDict_table_step hdollar' hdir' hka hkey hok]
            exact ih hrest hmem' r _
          · simp [py2jsDict, hdollar', hdir', hka, hkey, herr]

/-! ## Decoding only reads referenced table entries

A successful decode run only ever indexes the reference table at positions
that occur as digit-only field names in the data being decoded, so appending
arbitrary extra entries (decodable or not) cannot change the outcome. -/

theorem js2pyItems_skip_step {cont : JVal → Except SerErr PyVal} {k : String} {v : JVal}
    {rest : List (String × JVal)} {refs : List JVal} (hk : k ≠ "items") :
    js2pyItems cont ((k, v) :: rest) refs = js2pyItems cont rest refs := by
  rw [js2pyItems.eq_def]
  dsimp only
  rw [if_neg hk]

theorem js2pyItems_found_arr {cont : JVal → Except SerErr PyVal} {l : List JVal}
    {rest : List (String × JVal)} {refs : List JVal} :
    js2pyItems cont (("items", .arr l) :: rest) refs = js2pyGoList cont l refs := by
  simp [js2pyItems]

theorem js2pyItems_found_str {cont : JVal → Except SerErr PyVal} {s : String}
    {rest : List (String × JVal)} {refs : List JVal} :
    js2pyItems cont (("items", .str s) :: rest) refs =
      .ok (s.data.map (fun c => .str (String.mk [c]))) := by
  simp [js2pyItems]

theorem js2pyItems_found_obj {cont : JVal → Except SerErr PyVal}
    {fs rest : List (String × JVal)} {refs : List JVal} :
    js2pyItems cont (("items", .obj fs) :: rest) refs =
      .ok (fs.map (fun p => .str p.1)) := by
  simp [js2pyItems]

theorem getElem_append_left_of_lt {α : Type} {l1 l2 : List α} {i : Nat} (h : i < l1.length)
    (h2 : i < (l1 ++ l2).length) : (l1 ++ l2)[i] = l1[i] := by
  rw [List.getElem_append i h2, dif_pos h]

mutual

theorem js2pyGo_ext : ∀ (o : JVal) (refs extra : List JVal)
    (cont cont' : JVal → Except SerErr PyVal),
    (∀ e z, cont e = .ok z → cont' e = .ok z) →
    ∀ x, js2pyGo cont o refs = .ok x → js2pyGo cont' o (refs ++ extra) = .ok x
  | .str s, refs, extra, cont, cont', hpres, x, hok => by
      simp only [js2pyGo] at hok ⊢
      exact hok
  | .int n, refs, extra, cont, cont', hpres, x, hok => by
      simp only [js2pyGo] at hok ⊢
      exact hok
  | .null, refs, extra, cont, cont', hpres, x, hok => by
      simp only [js2pyGo] at hok ⊢
      exact hok
  | .arr items, refs, extra, cont, cont', hpres, x, hok => by
      cases hl : js2pyGoList cont items refs with
      | error e => simp [js2pyGo, hl] at hok
      | ok l =>
          simp only [js2pyGo, hl] at hok
          rw [← hok]
          exact js2pyGo_arr_step (js2pyGoList_ext items refs extra cont cont' hpres l hl)
  | .obj fields, refs, extra, cont, cont', hpres, x, hok => by
      cases hdollar : lookupField fields "$" with
      | some d =>
          by_cases hdt : d = .str "t"
          · subst hdt
            cases hi : js2pyItems cont fields refs with
            | error e => simp [js2pyGo, hdollar, hi] at hok
            | ok l =>
                simp only [js2pyGo, hdollar, if_pos rfl, hi] at hok
                rw [← hok]
                have hi' := js2pyItems_ext fields refs extra cont cont' hpres l hi
                simp [js2pyGo, hdollar, hi']
          · simp [js2pyGo, hdollar, hdt] at hok
      | none =>
          cases hd : js2pyGoDict cont fields refs [] with
          | error e => simp [js2pyGo, hdollar, hd] at hok
          | ok es =>
              simp only [js2pyGo, hdollar, hd] at hok
              rw [← hok]
              exact js2pyGo_objPlain_step hdollar
                (js2pyGoDict_ext fields refs extra cont cont' hpres [] es hd)
termination_by o _ _ _ _ _ _ _ => sizeOf o

theorem js2pyGoList_ext : ∀ (items : List JVal) (refs extra : List JVal)
    (cont cont' : JVal → Except SerErr PyVal),
    (∀ e z, cont e = .ok z → cont' e = .ok z) →
    ∀ ps, js2pyGoList cont items refs = .ok ps → js2pyGoList cont' items (refs ++ extra) = .ok ps
  | [], refs, extra, cont, cont', hpres, ps, hok => by
      simp only [js2pyGoList] at hok ⊢
      exact hok
  | x :: xs, refs, extra, cont, cont', hpres, ps, hok => by
      cases hx : js2pyGo cont x refs with
      | error e => simp [js2pyGoList, hx] at hok
      | ok p =>
          cases hxs : js2pyGoList cont xs refs with
          | error e => simp [js2pyGoList, hx, hxs] at hok
          | ok ps' =>
              simp only [js2pyGoList, hx, hxs] at hok
              rw [← hok]
              exact js2pyGoList_cons_step
                (js2pyGo_ext x refs extra cont cont' hpres p hx)
                (js2pyGoList_ext xs refs extra cont cont' hpres ps' hxs)
termination_by items _ _ _ _ _ _ _ => sizeOf items

theorem js2pyItems_ext : ∀ (fields : List (String × JVal)) (refs extra : List JVal)
    (cont cont' : JVal → Except SerErr PyVal),
    (∀ e z, cont e = .ok z → cont' e = .ok z) →
    ∀ ps, js2pyItems cont fields refs = .ok ps → js2pyItems cont' fields (refs ++ extra) = .ok ps
  | [], refs, extra, cont, cont', hpres, ps, hok => by
      simp [js2pyItems] at hok
  | (k, v) :: rest, refs, extra, cont, cont', hpres, ps, hok => by
      by_cases hk : k = "items"
      · subst hk
        cases v with
        | arr l =>
            rw [js2pyItems_found_arr] at hok ⊢
            exact js2pyGoList_ext l refs extra cont cont' hpres ps hok
        | str s =>
            rw [js2pyItems_found_str] at hok ⊢
            exact hok
        | obj fs =>
            rw [js2pyItems_found_obj] at hok ⊢
            exact hok
        | int n => simp [js2pyItems] at hok
        | null => simp [js2pyItems] at hok
      · rw [js2pyItems_skip_step hk] at hok
        rw [js2pyItems_skip_step hk]
        exact js2pyItems_ext rest refs extra cont cont' hpres ps hok
termination_by fields _ _ _ _ _ _ _ => sizeOf fields

theorem js2pyGoDict_ext : ∀ (fields : List (String × JVal)) (refs extra : List JVal)
    (cont cont' : JVal → Except SerErr PyVal),
    (∀ e z, cont e = .ok z → cont' e = .ok z) →
    ∀ (acc : List (PyVal × PyVal)) out,
    js2pyGoDict cont fields refs acc = .ok out →
    js2pyGoDict cont' fields (refs ++ extra) acc = .ok out
  | [], refs, extra, cont, cont', hpres, acc, out, hok => by
      simp only [js2pyGoDict] at hok ⊢
      exact hok
  | (name, v) :: rest, refs, extra, cont, cont', hpres, acc, out, hok => by
      by_cases hd : strIsDigit name = true
      · by_cases hb : strToNat name < refs.length
        · cases hv1 : js2pyGo cont v refs with
          | error e => simp [js2pyGoDict, hd, hb, hv1] at hok
          | ok pv =>
              cases hk1 : cont (refs[strToNat name]) with
              | error e => simp [js2pyGoDict, hd, hb, hv1, hk1] at hok
              | ok k =>
                  rw [js2pyGoDict_ref_step hd hb hv1 hk1] at hok
                  have hb' : strToNat name < (refs ++ extra).length := by
                    rw [List.length_append]; omega
                  have hget : (refs ++ extra)[strToNat name] = refs[strToNat name] :=
                    getElem_append_left_of_lt hb hb'
                  have hk1' : cont' ((refs ++ extra)[strToNat name]) = .ok k := by
                    rw [hget]
                    exact hpres _ _ hk1
                  rw [js2pyGoDict_ref_step hd hb'
                    (js2pyGo_ext v refs extra cont cont' hpres pv hv1) hk1']
                  exact js2pyGoDict_ext rest refs extra cont cont' hpres _ out hok
        · rw [js2pyGoDict_oob_step hd hb] at hok
          simp at hok
      · have hd' : strIsDigit name = false := by simpa using hd
        cases hv1 : js2pyGo cont v refs with
        | error e => simp [js2pyGoDict, hd', hv1] at hok
        | ok pv =>
            rw [js2pyGoDict_direct_step hd' hv1] at hok
            rw [js2pyGoDict_direct_step hd' (js2pyGo_ext v refs extra cont cont' hpres pv hv1)]
            exact js2pyGoDict_ext rest refs extra cont cont' hpres _ out hok
termination_by fields _ _ _ _ _ _ _ _ => sizeOf fields

end

/-- Fuel monotonicity combined with table extension for the fuelled decoder. -/
theorem js2pyFuel_ext : ∀ (fuel fuel' : Nat), fuel ≤ fuel' →
    ∀ (o : JVal) (refs extra : List JVal) (x : PyVal),
    js2pyFuel fuel o refs = .ok x → js2pyFuel fuel' o (refs ++ extra) = .ok x := by
  intro fuel
  induction fuel with
  | zero => intro fuel' _ o refs extra x hok; simp [js2pyFuel] at hok
  | succ m ih =>
      intro fuel' hle o refs extra x hok
      cases fuel' with
      | zero => omega
      | succ m' =>
          rw [js2pyFuel] at hok ⊢
          exact js2pyGo_ext o refs extra _ _
            (fun e z h => ih m' (by omega) e refs extra z h) x hok

/-! ## Claim theorems -/

/-- C1: Round-trip law — for every well-formed generalized value `x`
(mappings have pairwise-distinct keys, no key equal to the string `"$"`, and
keys contain no nested mapping, per the data model of §3) and every version
argument in {1, 2}, decoding the encoding of `x` through an order-preserving
JSON transcoding returns a value structurally equal to `x`, preserving the
`Sequence`/`Tuple` distinction and non-string mapping keys. -/
theorem claim_C1_roundtrip (x : PyVal) (v : Int) (hwf : wfB x = true)
    (hv : v = 1 ∨ v = 2) :
    ∃ env, python_to_json x v = .ok env ∧ json_to_python (jsonRoundTrip env) = .ok x :=
  ⟨_, python_to_json_spec x v hwf hv, json_to_python_spec x hwf⟩

/-- Witness for C1 at a concrete value exercising integer, tuple,
digit-string and plain-string keys, with version 2. -/
theorem claim_C1_roundtrip_witness :
    wfB (.dict [(.int 1, .str "a"), (.tuple [.int 2, .int 3], .str "b"),
      (.str "07", .none), (.str "hello", .list [.int 5])]) = true ∧
    ∃ env, python_to_json (.dict [(.int 1, .str "a"), (.tuple [.int 2, .int 3], .str "b"),
        (.str "07", .none), (.str "hello", .list [.int 5])]) 2 = .ok env ∧
      json_to_python (jsonRoundTrip env) =
        .ok (.dict [(.int 1, .str "a"), (.tuple [.int 2, .int 3], .str "b"),
          (.str "07", .none), (.str "hello", .list [.int 5])]) :=
  ⟨rfl, claim_C1_roundtrip _ 2 rfl (Or.inr rfl)⟩

/-- C2 (counterexample): the source hard-codes `"v": 1`, so encoding with
version 2 produces an envelope whose `"v"` field is `1`, not the version
argument `2`. -/
theorem claim_C2_counterexample :
    python_to_json (.int 5) 2 =
      .ok (.obj [("v", .int 1), ("data", .int 5), ("references", .arr [])]) ∧
    JVal.int 1 ≠ JVal.int 2 :=
  ⟨rfl, by decide⟩

/-- C2 (amended): for every supported value and version argument, the
envelope returned by `python_to_json` has its `"v"` field equal to the
literal integer 1, regardless of the version argument. -/
theorem claim_C2_amended (x : PyVal) (v : Int) (env : JVal)
    (h : python_to_json x v = .ok env) :
    ∃ data refs, env = .obj [("v", .int 1), ("data", data), ("references", .arr refs)] := by
  by_cases hv : v = 1 ∨ v = 2
  · simp only [python_to_json, if_pos hv] at h
    cases hp : py2js x [] with
    | error e => rw [hp] at h; cases h
    | ok p =>
        obtain ⟨data, refs⟩ := p
        rw [hp] at h
        simp only [Except.ok.injEq] at h
        exact ⟨data, refs, h.symm⟩
  · simp only [python_to_json, if_neg hv] at h
    cases h

/-- Witness for the amended C2: encoding the integer 5 with version 2. -/
theorem claim_C2_amended_witness :
    ∃ data refs, (JVal.obj [("v", .int 1), ("data", .int 5), ("references", .arr [])]) =
      .obj [("v", .int 1), ("data", data), ("references", .arr refs)] :=
  claim_C2_amended (.int 5) 2 _ rfl

/-- C3: during one encode call the reference table accumulates exactly the
entries `encRefs` (one `keyEnc k` per non-direct key, in depth-first
left-to-right first-encounter order, not sorted and not deduplicated,
interleaved with the entries contributed by the corresponding values), and
the produced data is `encData` (whose field name for a non-direct key is the
decimal string of the table index at which that key's encoded form sits; a
key of a well-formed value is `Mapping`-free, so its encoding appends no
nested entries and lands exactly at the recorded index). -/
theorem claim_C3_reference_table (x : PyVal) (entries : List (PyVal × PyVal))
    (refs : List JVal) (hwf : wfB x = true) (hwfd : wfBDict entries = true) :
    py2js x refs = .ok (encData x refs.length, refs ++ encRefs x) ∧
    py2jsDict entries refs [] =
      .ok (encDataDict entries refs.length, refs ++ encRefsDict entries) := by
  refine ⟨py2js_spec x hwf refs, ?_⟩
  have := py2jsDict_spec entries hwfd refs [] (by intro name hname p hp; simp at hp)
  simpa using this

/-- Witness for C3: two structurally equal integer keys in different
mappings each get their own table entry, in depth-first order. -/
theorem claim_C3_reference_table_witness :
    py2js (.list [.dict [(.int 7, .none)], .dict [(.int 7, .none)]]) [] =
      .ok (encData (.list [.dict [(.int 7, .none)], .dict [(.int 7, .none)]]) 0,
        [] ++ encRefs (.list [.dict [(.int 7, .none)], .dict [(.int 7, .none)]])) ∧
    py2jsDict [(.int 7, .none)] [] [] =
      .ok (encDataDict [(.int 7, .none)] 0, [] ++ encRefsDict [(.int 7, .none)]) :=
  claim_C3_reference_table _ _ [] rfl rfl

/-- C4: string key optimization — `{"hello": 1}` encodes with the string as
a direct field name and an empty reference table; the digit-only key
`"123"` is pushed into the table and referenced as field `"0"`. -/
theorem claim_C4_string_key_optimization :
    python_to_json (.dict [(.str "hello", .int 1)]) 1 =
      .ok (.obj [("v", .int 1), ("data", .obj [("hello", .int 1)]),
        ("references", .arr [])]) ∧
    python_to_json (.dict [(.str "123", .int 1)]) 1 =
      .ok (.obj [("v", .int 1), ("data", .obj [("0", .int 1)]),
        ("references", .arr [.str "123"])]) :=
  ⟨rfl, rfl⟩

/-- C5: tuple/list distinction — `[1,2,3]` encodes to the bare array and
decodes back to a `Sequence`; `(1,2,3)` encodes to the `{"$": "t", "items":
...}` marker and decodes back to a `Tuple`. -/
theorem claim_C5_tuple_list_distinction :
    python_to_json (.list [.int 1, .int 2, .int 3]) 1 =
      .ok (.obj [("v", .int 1), ("data", .arr [.int 1, .int 2, .int 3]),
        ("references", .arr [])]) ∧
    python_to_json (.tuple [.int 1, .int 2, .int 3]) 1 =
      .ok (.obj [("v", .int 1),
        ("data", .obj [("$", .str "t"), ("items", .arr [.int 1, .int 2, .int 3])]),
        ("references", .arr [])]) ∧
    json_to_python (.obj [("v", .int 1), ("data", .arr [.int 1, .int 2, .int 3]),
        ("references", .arr [])]) = .ok (.list [.int 1, .int 2, .int 3]) ∧
    json_to_python (.obj [("v", .int 1),
        ("data", .obj [("$", .str "t"), ("items", .arr [.int 1, .int 2, .int 3])]),
        ("references", .arr [])]) = .ok (.tuple [.int 1, .int 2, .int 3]) :=
  ⟨rfl, rfl, rfl, rfl⟩

/-- C6 (counterexample): the decoder takes the Tuple path for any object
containing `"$" -> "t"`, even when the object has keys other than exactly
`"$"` and `"items"` — here the extra key `"x"` is silently ignored, so the
claim's "exactly the discriminator key and items" reading is false. -/
theorem claim_C6_counterexample :
    json_to_python (.obj [("v", .int 1),
      ("data", .obj [("$", .str "t"), ("items", .arr [.int 1]), ("x", .int 2)]),
      ("references", .arr [])]) = .ok (.tuple [.int 1]) ∧
    "x" ∈ ([("$", JVal.str "t"), ("items", JVal.arr [JVal.int 1]),
      ("x", JVal.int 2)]).map Prod.fst ∧ "x" ≠ "$" ∧ "x" ≠ "items" :=
  ⟨rfl, by decide, by decide, by decide⟩

/-- C6 (amended): the decoder interprets an object as a `Tuple` exactly when
the object contains the key `"$"` with value `"t"` (any other keys are
ignored, and `"items"` may be any iterable); if the object contains `"$"`
with any value other than the string `"t"`, decoding fails with the
unrecognized-discriminator `TypeError` rather than returning a value. -/
theorem claim_C6_amended (cont : JVal → Except SerErr PyVal)
    (fields : List (String × JVal)) (refs : List JVal) :
    (∀ d, lookupField fields "$" = some d → d ≠ .str "t" →
      js2pyGo cont (.obj fields) refs = .error (.typeError "Unrecognized object")) ∧
    (∀ x, js2pyGo cont (.obj fields) refs = .ok x →
      ((∃ items, x = PyVal.tuple items) ↔ lookupField fields "$" = some (.str "t"))) := by
  cases hdollar : lookupField fields "$" with
  | none =>
      refine ⟨?_, ?_⟩
      · intro d habs
        cases habs
      · intro x hok
        constructor
        · rintro ⟨items, rfl⟩
          cases hd : js2pyGoDict cont fields refs [] with
          | error e => simp [js2pyGo, hdollar, hd] at hok
          | ok es => simp [js2pyGo, hdollar, hd] at hok
        · intro habs
          cases habs
  | some d =>
      by_cases hdt : d = .str "t"
      · subst hdt
        refine ⟨?_, ?_⟩
        · intro d' hsome hne
          injection hsome with hd'
          exact absurd hd'.symm hne
        · intro x hok
          cases hi : js2pyItems cont fields refs with
          | error e => simp [js2pyGo, hdollar, hi] at hok
          | ok l =>
              simp [js2pyGo, hdollar, hi] at hok
              refine ⟨fun _ => rfl, fun _ => ⟨l, ?_⟩⟩
              exact hok.symm
      · refine ⟨?_, ?_⟩
        · intro d' hsome hne
          injection hsome with hd'
          subst hd'
          simp [js2pyGo, hdollar, hdt]
        · intro x hok
          simp [js2pyGo, hdollar, hdt] at hok

/-- Witness for the amended C6: an object with an extra key `"x"` besides
the tuple marker still satisfies the tuple-path characterization. -/
theorem claim_C6_amended_witness :
    lookupField [("$", JVal.str "t"), ("items", JVal.arr [JVal.int 1]),
      ("x", JVal.int 2)] "$" = some (.str "t") :=
  ((claim_C6_amended (fun _ => .error .recursionError)
      [("$", JVal.str "t"), ("items", JVal.arr [JVal.int 1]), ("x", JVal.int 2)] []).2
    (.tuple [.int 1]) rfl).mp ⟨[.int 1], rfl⟩

/-- C7: whenever the decoder meets a plain-object field whose name is a
digit-only string, the name is converted to an integer index: out of range
(`len(table) <= index`; the index is a natural number, so `0 <= index` is
automatic) fails with the malformed-reference assertion, and in range the
key is obtained by decoding the table entry at that index.  The third
conjunct is the specification's concrete example: `data = {"5": "x"}` with
an empty table fails. -/
theorem claim_C7_out_of_range (cont : JVal → Except SerErr PyVal) (name : String)
    (v : JVal) (rest : List (String × JVal)) (refs : List JVal)
    (acc : List (PyVal × PyVal)) (hd : strIsDigit name = true) :
    (refs.length ≤ strToNat name →
      js2pyGoDict cont ((name, v) :: rest) refs acc =
        .error (.assertionError "refid out of range")) ∧
    (∀ h : strToNat name < refs.length, ∀ pv k,
      js2pyGo cont v refs = .ok pv → cont (refs[strToNat name]) = .ok k →
      js2pyGoDict cont ((name, v) :: rest) refs acc =
        js2pyGoDict cont rest refs (setKeyP acc k pv)) ∧
    json_to_python (.obj [("v", .int 1), ("data", .obj [("5", .str "x")]),
      ("references", .arr [])]) = .error (.assertionError "refid out of range") :=
  ⟨fun hle => js2pyGoDict_oob_step hd (by omega),
   fun h pv k hval hkey => js2pyGoDict_ref_step hd h hval hkey,
   rfl⟩

/-- Witness for C7 at the specification's example field `"5"` with an empty
reference table. -/
theorem claim_C7_out_of_range_witness :
    js2pyGoDict (fun _ => .error .recursionError) [("5", JVal.str "x")] [] [] =
      .error (.assertionError "refid out of range") :=
  (claim_C7_out_of_range (fun _ => .error .recursionError) "5" (.str "x") [] [] []
    (by decide)).1 (by decide)

/-- C8: version validation — `python_to_json` fails with the version
assertion when the argument is outside {1, 2} and behaves identically to
version 1 otherwise; `json_to_python` fails with the unsupported-version
assertion when the envelope's `"v"` field is not the integer 1 or 2 (for
example `3`), and for an accepted version it proceeds to decode the data
against the reference table. -/
theorem claim_C8_version_validation (x : PyVal) (version : Int) (vj data : JVal)
    (refs : List JVal) :
    ((version ≠ 1 ∧ version ≠ 2) →
      python_to_json x version = .error (.assertionError "version not in (1, 2)")) ∧
    ((version = 1 ∨ version = 2) → python_to_json x version = python_to_json x 1) ∧
    ((vj ≠ .int 1 ∧ vj ≠ .int 2) →
      json_to_python (.obj [("v", vj), ("data", data), ("references", .arr refs)]) =
        .error (.assertionError "version not in (1, 2)")) ∧
    ((vj = .int 1 ∨ vj = .int 2) →
      json_to_python (.obj [("v", vj), ("data", data), ("references", .arr refs)]) =
        js2pyFuel (refs.length + 1) data refs) := by
  refine ⟨?_, ?_, ?_, ?_⟩
  · intro hne
    rw [python_to_json, if_neg (by tauto)]
  · intro hv
    rw [python_to_json, if_pos hv, python_to_json, if_pos (Or.inl rfl)]
  · intro hne
    simp [json_to_python, jGet, lookupField, hne.1, hne.2]
  · intro hv
    rcases hv with rfl | rfl <;> simp [json_to_python, jGet, lookupField]

/-- Witness for C8: version 3 is rejected by both encoder and decoder, and
version 2 encodes like version 1. -/
theorem claim_C8_version_validation_witness :
    python_to_json (.int 0) 3 = .error (.assertionError "version not in (1, 2)") ∧
    json_to_python (.obj [("v", .int 3), ("data", .int 0), ("references", .arr [])]) =
      .error (.assertionError "version not in (1, 2)") ∧
    python_to_json (.int 0) 2 = python_to_json (.int 0) 1 :=
  ⟨(claim_C8_version_validation (.int 0) 3 (.int 3) (.int 0) []).1 (by decide),
   (claim_C8_version_validation (.int 0) 3 (.int 3) (.int 0) []).2.2.1 (by decide),
   (claim_C8_version_validation (.int 0) 2 (.int 2) (.int 0) []).2.1 (Or.inr rfl)⟩

/-- C9: reserved-key rejection — a mapping (with `Mapping`-free keys, per
the data model) that directly contains the key `"$"` always makes the
encoder fail with the reserved-key `ValueError`, as a hard failure of the
whole encode call with no partial output (`Except.error` carries none). -/
theorem claim_C9_reserved_key (entries : List (PyVal × PyVal)) (refs : List JVal)
    (acc : List (String × JVal)) (version : Int)
    (hk : hashKeysBDict entries = true)
    (hmem : (PyVal.str "$") ∈ entries.map Prod.fst) :
    py2jsDict entries refs acc = .error reservedKeyError ∧
    ((version = 1 ∨ version = 2) →
      python_to_json (.dict entries) version = .error reservedKeyError) := by
  refine ⟨py2jsDict_dollar entries hk hmem refs acc, fun hv => ?_⟩
  have h2 := py2jsDict_dollar entries hk hmem [] []
  simp [python_to_json, hv, py2js, h2]

/-- Witness for C9: the mapping `{"a": 0, "$": 1}` is rejected. -/
theorem claim_C9_reserved_key_witness :
    py2jsDict [(.str "a", .int 0), (.str "$", .int 1)] [] [] = .error reservedKeyError ∧
    ((1 : Int) = 1 ∨ (1 : Int) = 2 →
      python_to_json (.dict [(.str "a", .int 0), (.str "$", .int 1)]) 1 =
        .error reservedKeyError) :=
  claim_C9_reserved_key [(.str "a", .int 0), (.str "$", .int 1)] [] [] 1 rfl (by decide)

/-- C10: decode reads only referenced table entries — if an envelope
decodes successfully, the same envelope with arbitrary extra entries
appended to its reference table (including entries that would themselves
fail to decode) still decodes successfully to the same value. -/
theorem claim_C10_unreferenced_entries (vj data : JVal) (refs extra : List JVal)
    (x : PyVal)
    (h : json_to_python (.obj [("v", vj), ("data", data), ("references", .arr refs)]) =
      .ok x) :
    json_to_python (.obj [("v", vj), ("data", data),
      ("references", .arr (refs ++ extra))]) = .ok x := by
  by_cases hv : vj = .int 1 ∨ vj = .int 2
  · have hfuel : js2pyFuel (refs.length + 1) data refs = .ok x := by
      rcases hv with rfl | rfl <;>
        simpa [json_to_python, jGet, lookupField] using h
    have hext := js2pyFuel_ext (refs.length + 1) ((refs ++ extra).length + 1)
      (by simp only [List.length_append]; omega) data refs extra x hfuel
    rcases hv with rfl | rfl <;>
      simpa [json_to_python, jGet, lookupField] using hext
  · exfalso
    have h1 : vj ≠ JVal.int 1 := fun hc => hv (Or.inl hc)
    have h2 : vj ≠ JVal.int 2 := fun hc => hv (Or.inr hc)
    simp [json_to_python, jGet, lookupField, h1, h2] at h

/-- Witness for C10: a decodable envelope still decodes, unchanged, after an
undecodable junk entry (an unrecognized `"$"` marker) is appended to its
reference table. -/
theorem claim_C10_unreferenced_entries_witness :
    json_to_python (.obj [("v", .int 1), ("data", .obj [("0", .int 7)]),
      ("references", .arr ([.str "a"] ++ [.obj [("$", .str "zz")]]))]) =
      .ok (.dict [(.str "a", .int 7)]) :=
  claim_C10_unreferenced_entries (.int 1) (.obj [("0", .int 7)]) [.str "a"]
    [.obj [("$", .str "zz")]] (.dict [(.str "a", .int 7)]) rfl
